import Mathlib

/-!
Shallow embedding of the Tic-Tac-Toe minimax program
(`src/0 Search/minimax.py`, class `TicTacToe`).

The Python program represents a board as a 3×3 list of lists whose cells
are `None`, `"X"` or `"O"`.  Every board the program constructs is exactly
3×3 (`__init__` builds it, `result` deep-copies it), so the board type is
embedded as a record of nine cells.  Python `int` arithmetic never comes
near overflow here (all values are in `{-1, 0, 1}` plus `±inf` sentinels),
so values are plain `Int`; the `-math.inf` / `math.inf` initialisers of the
search loops are embedded as a `none` accumulator (`none` compares the way
`±inf` does against every finite value).  Python equality tests (`==`,
`is None`) are embedded as boolean cell tests.
-/

namespace TTT

/-- A player mark: the Python strings `"X"` and `"O"`. -/
inductive Player : Type where
  | X : Player
  | O : Player
deriving DecidableEq, Repr

open Player

/-- A cell of the board: `None` (empty) or a player mark. -/
abbrev Cell := Option Player

/-- Python `cell is None`. -/
def cellEmpty : Cell → Bool
  | none => true
  | some _ => false

/-- Python `==` on two cells. -/
def cellEq : Cell → Cell → Bool
  | none, none => true
  | some X, some X => true
  | some O, some O => true
  | _, _ => false

/-- The 3×3 board: `board[i][j]` for `i, j ∈ {0,1,2}`.
Field `aij` is row `i`, column `j`. -/
structure Board : Type where
  a00 : Cell
  a01 : Cell
  a02 : Cell
  a10 : Cell
  a11 : Cell
  a12 : Cell
  a20 : Cell
  a21 : Cell
  a22 : Cell
deriving DecidableEq, Repr

/-- A move `(i, j)`: a pair of Python ints (row, column). -/
abbrev Action := Nat × Nat

/-- The initial board of `__init__`: all nine cells `None`. -/
def emptyBoard : Board :=
  ⟨none, none, none, none, none, none, none, none, none⟩

/-- `board[i][j]`.  Out-of-range indices return `none`; the program never
indexes out of range (`result` guards by membership in `actions`). -/
def Board.cell (b : Board) (i j : Nat) : Cell :=
  match i, j with
  | 0, 0 => b.a00
  | 0, 1 => b.a01
  | 0, 2 => b.a02
  | 1, 0 => b.a10
  | 1, 1 => b.a11
  | 1, 2 => b.a12
  | 2, 0 => b.a20
  | 2, 1 => b.a21
  | 2, 2 => b.a22
  | _, _ => none

/-- The board rows, as the Python list-of-lists `[board[0], board[1], board[2]]`. -/
def Board.rows (b : Board) : List (List Cell) :=
  [[b.a00, b.a01, b.a02], [b.a10, b.a11, b.a12], [b.a20, b.a21, b.a22]]

/-- The nine coordinates in the order the loops
`for i in range(3): for j in range(3)` visit them (row-major). -/
def allCoords : List Action :=
  [(0, 0), (0, 1), (0, 2), (1, 0), (1, 1), (1, 2), (2, 0), (2, 1), (2, 2)]

/-- `TicTacToe.actions`: all coordinates `(i, j)` whose cell is empty,
in the row-major order of the double loop.  (The Python function collects
them into a `set`; the embedding keeps the deterministic scan order as a
list, which is also the order the search loops enumerate.) -/
def actions (b : Board) : List Action :=
  allCoords.filter (fun p => cellEmpty (b.cell p.1 p.2))

/-- Number of `X` cells: `sum(row.count(self.X) for row in board)`. -/
def xCount (b : Board) : Nat :=
  (b.rows.map (fun row => row.count (some X))).sum

/-- Number of `O` cells: `sum(row.count(self.O) for row in board)`. -/
def oCount (b : Board) : Nat :=
  (b.rows.map (fun row => row.count (some O))).sum

/-- `TicTacToe.player`: `X` if `x_count <= o_count` else `O`. -/
def player (b : Board) : Player :=
  if xCount b ≤ oCount b then X else O

/-- Writing cell `(i, j)` of a (deep-copied) board.  Out-of-range writes
return the board unchanged; `result` only writes coordinates drawn from
`actions`. -/
def Board.setCell (b : Board) (i j : Nat) (v : Cell) : Board :=
  match i, j with
  | 0, 0 => { b with a00 := v }
  | 0, 1 => { b with a01 := v }
  | 0, 2 => { b with a02 := v }
  | 1, 0 => { b with a10 := v }
  | 1, 1 => { b with a11 := v }
  | 1, 2 => { b with a12 := v }
  | 2, 0 => { b with a20 := v }
  | 2, 1 => { b with a21 := v }
  | 2, 2 => { b with a22 := v }
  | _, _ => b

/-- The success path of `TicTacToe.result`: deep-copy the board and set the
target cell to the player to move.  (Value semantics make the copy implicit.) -/
def place (b : Board) (a : Action) : Board :=
  b.setCell a.1 a.2 (some (player b))

/-- `TicTacToe.result`: raises `Exception("Invalid action")` when the action
is not in `actions(board)`, otherwise returns the updated copy. -/
def result (b : Board) (a : Action) : Except String Board :=
  if a ∈ actions b then Except.ok (place b a)
  else Except.error "Invalid action"

/-- `TicTacToe.winner`: scan the 3 rows, the 3 columns, then the two
diagonals for three equal non-empty cells, returning the first hit. -/
def winner (b : Board) : Option Player :=
  if cellEq b.a00 b.a01 && cellEq b.a01 b.a02 && !cellEmpty b.a00 then b.a00
  else if cellEq b.a10 b.a11 && cellEq b.a11 b.a12 && !cellEmpty b.a10 then b.a10
  else if cellEq b.a20 b.a21 && cellEq b.a21 b.a22 && !cellEmpty b.a20 then b.a20
  else if cellEq b.a00 b.a10 && cellEq b.a10 b.a20 && !cellEmpty b.a00 then b.a00
  else if cellEq b.a01 b.a11 && cellEq b.a11 b.a21 && !cellEmpty b.a01 then b.a01
  else if cellEq b.a02 b.a12 && cellEq b.a12 b.a22 && !cellEmpty b.a02 then b.a02
  else if cellEq b.a00 b.a11 && cellEq b.a11 b.a22 && !cellEmpty b.a00 then b.a00
  else if cellEq b.a02 b.a11 && cellEq b.a11 b.a20 && !cellEmpty b.a02 then b.a02
  else none

/-- `TicTacToe.terminal`: someone won, or no action is left. -/
def terminal (b : Board) : Bool :=
  !cellEmpty (winner b) || (actions b).length == 0

/-- `TicTacToe.utility`: `1` if `X` won, `-1` if `O` won, `0` otherwise. -/
def utility (b : Board) : Int :=
  match winner b with
  | some X => 1
  | some O => -1
  | none => 0

/-- Identity on `Int`, applied through its continuation after reducing the
value to constructor form.  Python is call-by-value: `min_val = ...` in the
loops evaluates the recursive call once per iteration.  The embedding routes
the value through this match so that call-by-name reduction also evaluates
it exactly once; `forceI_eq` below erases it in symbolic reasoning. -/
def forceI {α : Type} (v : Int) (k : Int → α) : α :=
  match v with
  | Int.ofNat n => k (Int.ofNat n)
  | Int.negSucc n => k (Int.negSucc n)

/-- The loop of `max_value`: running best `(v, best_action)`, where the
`none` accumulator is the initial `v = -math.inf, best_action = None` pair
(every finite value compares `>` against `-inf`, so the first action always
replaces `none`); afterwards `if min_val > v` updates, so ties keep the
earlier action. -/
def maxLoop (f : Action → Int) : List Action → Option (Int × Action) → Option (Int × Action)
  | [], acc => acc
  | a :: rest, acc =>
      forceI (f a) (fun mv =>
        maxLoop f rest
          (match acc with
           | none => some (mv, a)
           | some (v, ba) => if mv > v then some (mv, a) else some (v, ba)))

/-- The loop of `min_value`, with `if max_val < v` (initial `v = math.inf`). -/
def minLoop (f : Action → Int) : List Action → Option (Int × Action) → Option (Int × Action)
  | [], acc => acc
  | a :: rest, acc =>
      forceI (f a) (fun mv =>
        minLoop f rest
          (match acc with
           | none => some (mv, a)
           | some (v, ba) => if mv < v then some (mv, a) else some (v, ba)))

mutual

/-- `TicTacToe.max_value`, with structural fuel standing for the recursion
depth (the Python recursion terminates because each `result` strictly
decreases the number of empty cells; the fuel-irrelevance theorem below shows
any fuel ≥ that number computes the same answer, so fuel 9 is canonical).
A loop result of `none` would mean `actions(board)` was empty, which the
non-terminal guard excludes; that branch returns the Python `-inf`
placeholder pair as `(0, none)` and is unreachable. -/
def maxVal : Nat → Board → Int × Option Action
  | 0, b => (utility b, none)
  | fuel + 1, b =>
    if terminal b then (utility b, none)
    else
      match maxLoop (fun a => (minVal fuel (place b a)).1) (actions b) none with
      | some (v, ba) => (v, some ba)
      | none => (0, none)

/-- `TicTacToe.min_value`, symmetrically. -/
def minVal : Nat → Board → Int × Option Action
  | 0, b => (utility b, none)
  | fuel + 1, b =>
    if terminal b then (utility b, none)
    else
      match minLoop (fun a => (maxVal fuel (place b a)).1) (actions b) none with
      | some (v, ba) => (v, some ba)
      | none => (0, none)

end

/-- `TicTacToe.minimax`: `None` on terminal boards; otherwise the action
component of `max_value` (for `X` to move) or `min_value` (for `O`). -/
def minimax (b : Board) : Option Action :=
  if terminal b then none
  else if player b = X then (maxVal 9 b).2
  else (minVal 9 b).2

end TTT

namespace TTT

open Player

/-! ### Basic facts about cells, coordinates and actions -/

theorem cellEmpty_eq_true {c : Cell} : cellEmpty c = true ↔ c = none := by
  rcases c with _ | p
  · simp [cellEmpty]
  · simp [cellEmpty]

theorem cellEq_eq_true {c d : Cell} : cellEq c d = true ↔ c = d := by
  rcases c with _ | p <;> rcases d with _ | q
  · simp [cellEq]
  · simp [cellEq]
  · simp [cellEq]
  · cases p <;> cases q <;> simp [cellEq]

theorem mem_allCoords {p : Action} : p ∈ allCoords ↔ p.1 ≤ 2 ∧ p.2 ≤ 2 := by
  obtain ⟨i, j⟩ := p
  constructor
  · intro h
    simp [allCoords] at h
    rcases h with h | h | h | h | h | h | h | h | h <;> simp_all
  · rintro ⟨hi, hj⟩
    interval_cases i <;> interval_cases j <;> simp [allCoords]

theorem mem_actions {b : Board} {a : Action} :
    a ∈ actions b ↔ a.1 ≤ 2 ∧ a.2 ≤ 2 ∧ b.cell a.1 a.2 = none := by
  unfold actions
  rw [List.mem_filter]
  rw [mem_allCoords, cellEmpty_eq_true]
  tauto

end TTT

namespace TTT

open Player

theorem cell_place_same {b : Board} {i j : Nat} (hi : i ≤ 2) (hj : j ≤ 2) :
    (place b (i, j)).cell i j = some (player b) := by
  interval_cases i <;> interval_cases j <;> rfl

theorem cell_place_other {b : Board} {i j i' j' : Nat} (hi : i ≤ 2) (hj : j ≤ 2)
    (hi' : i' ≤ 2) (hj' : j' ≤ 2) (hne : (i', j') ≠ (i, j)) :
    (place b (i, j)).cell i' j' = b.cell i' j' := by
  interval_cases i <;> interval_cases j <;> interval_cases i' <;> interval_cases j' <;>
    first
    | rfl
    | exact absurd rfl hne

/-- The one-row counting identity behind the `|actions| + #X + #O = 9` invariant. -/
theorem count_cells (l : List Cell) :
    l.countP cellEmpty + l.count (some X) + l.count (some O) = l.length := by
  induction l with
  | nil => rfl
  | cons c t ih =>
    rcases c with _ | p
    · simp [List.countP_cons, List.count_cons, cellEmpty]
      omega
    · cases p <;> simp [List.countP_cons, List.count_cons, cellEmpty] <;> omega

end TTT

namespace TTT

open Player

/-- The nine cells in row-major order (proof-layer helper). -/
def cellsOf (b : Board) : List Cell :=
  [b.a00, b.a01, b.a02, b.a10, b.a11, b.a12, b.a20, b.a21, b.a22]

theorem length_actions_eq (b : Board) : (actions b).length = (cellsOf b).countP cellEmpty := by
  rw [actions, ← List.countP_eq_length_filter]
  rw [show cellsOf b = allCoords.map (fun q => b.cell q.1 q.2) from rfl, List.countP_map]
  rfl

theorem xCount_eq (b : Board) : xCount b = (cellsOf b).count (some X) := by
  rw [show cellsOf b = [b.a00, b.a01, b.a02] ++ ([b.a10, b.a11, b.a12] ++ [b.a20, b.a21, b.a22]) from rfl,
      List.count_append, List.count_append]
  simp [xCount, Board.rows]

theorem oCount_eq (b : Board) : oCount b = (cellsOf b).count (some O) := by
  rw [show cellsOf b = [b.a00, b.a01, b.a02] ++ ([b.a10, b.a11, b.a12] ++ [b.a20, b.a21, b.a22]) from rfl,
      List.count_append, List.count_append]
  simp [oCount, Board.rows]

/-- C8: for every board, the number of legal actions plus the number of `X`
cells plus the number of `O` cells is 9. -/
theorem actions_plus_marks (b : Board) :
    (actions b).length + xCount b + oCount b = 9 := by
  rw [length_actions_eq, xCount_eq, oCount_eq]
  have h := count_cells (cellsOf b)
  simpa [cellsOf] using h

/-- C6: `result` signals the invalid-action error exactly when the target
cell is occupied or the coordinates leave the 3×3 range; on every action the
search enumerates (a member of `actions`), it succeeds and returns the
updated board, so the search itself never sees the error. -/
theorem result_error_characterization :
    (∀ (b : Board) (a : Action),
        result b a = Except.error "Invalid action" ↔
          (2 < a.1 ∨ 2 < a.2 ∨ b.cell a.1 a.2 ≠ none)) ∧
    (∀ (b : Board) (a : Action), a ∈ actions b → result b a = Except.ok (place b a)) := by
  constructor
  · intro b a
    unfold result
    split
    · rename_i hmem
      rw [mem_actions] at hmem
      obtain ⟨h1, h2, h3⟩ := hmem
      simp [h3]
      omega
    · rename_i hmem
      rw [mem_actions] at hmem
      push_neg at hmem
      constructor
      · intro _
        by_cases h1 : a.1 ≤ 2
        · by_cases h2 : a.2 ≤ 2
          · exact Or.inr (Or.inr (hmem h1 h2))
          · omega
        · omega
      · intro _
        rfl
  · intro b a h
    unfold result
    exact if_pos h

theorem result_error_characterization_witness :
    result emptyBoard (0, 0) = Except.ok (place emptyBoard (0, 0)) :=
  result_error_characterization.2 emptyBoard (0, 0) (by decide)

/-- C7: on a legal action (in-range empty target), `result` succeeds with a
board whose target cell carries the mover's mark and whose other eight cells
are unchanged.  (Mutation cannot arise: boards are values, and `place`
builds a fresh record.) -/
theorem result_frame (b : Board) (i j : Nat) (hi : i ≤ 2) (hj : j ≤ 2)
    (h : b.cell i j = none) :
    result b (i, j) = Except.ok (place b (i, j)) ∧
    (place b (i, j)).cell i j = some (player b) ∧
    ∀ i' j', i' ≤ 2 → j' ≤ 2 → (i', j') ≠ (i, j) →
      (place b (i, j)).cell i' j' = b.cell i' j' := by
  refine ⟨?_, cell_place_same hi hj, ?_⟩
  · exact result_error_characterization.2 b (i, j) (mem_actions.mpr ⟨hi, hj, h⟩)
  · intro i' j' hi' hj' hne
    exact cell_place_other hi hj hi' hj' hne

theorem result_frame_witness :
    result emptyBoard (1, 1) = Except.ok (place emptyBoard (1, 1)) ∧
    (place emptyBoard (1, 1)).cell 1 1 = some (player emptyBoard) ∧
    ∀ i' j', i' ≤ 2 → j' ≤ 2 → (i', j') ≠ (1, 1) →
      (place emptyBoard (1, 1)).cell i' j' = emptyBoard.cell i' j' :=
  result_frame emptyBoard 1 1 (by decide) (by decide) (by decide)

/-- C10: `utility` is a total function and returns 0 on every board without
a winner, terminal or not. -/
theorem utility_zero_of_no_winner (b : Board) (h : winner b = none) :
    utility b = 0 := by
  simp [utility, h]

theorem utility_zero_of_no_winner_witness :
    utility (emptyBoard.setCell 1 1 (some X)) = 0 :=
  utility_zero_of_no_winner (emptyBoard.setCell 1 1 (some X)) (by decide)

end TTT

namespace TTT

open Player

/-! ### The selection loops of `max_value` / `min_value` -/

theorem forceI_eq {α : Type} (v : Int) (k : Int → α) : forceI v k = k v := by
  cases v <;> rfl

theorem maxLoop_congr {F G : Action → Int} :
    ∀ (l : List Action), (∀ a ∈ l, F a = G a) → ∀ acc, maxLoop F l acc = maxLoop G l acc := by
  intro l
  induction l with
  | nil => intro _ _; rfl
  | cons a rest ih =>
    intro h acc
    rw [maxLoop, maxLoop, forceI_eq, forceI_eq, h a (by simp)]
    exact ih (fun x hx => h x (by simp [hx])) _

theorem minLoop_congr {F G : Action → Int} :
    ∀ (l : List Action), (∀ a ∈ l, F a = G a) → ∀ acc, minLoop F l acc = minLoop G l acc := by
  intro l
  induction l with
  | nil => intro _ _; rfl
  | cons a rest ih =>
    intro h acc
    rw [minLoop, minLoop, forceI_eq, forceI_eq, h a (by simp)]
    exact ih (fun x hx => h x (by simp [hx])) _

theorem maxLoop_eq_none {f : Action → Int} :
    ∀ (l : List Action) acc, maxLoop f l acc = none → l = [] ∧ acc = none := by
  intro l
  induction l with
  | nil => intro acc h; exact ⟨rfl, h⟩
  | cons a rest ih =>
    intro acc h
    rw [maxLoop, forceI_eq] at h
    split at h
    · exact absurd (ih _ h).2 (by simp)
    · split at h <;> exact absurd (ih _ h).2 (by simp)

theorem minLoop_eq_none {f : Action → Int} :
    ∀ (l : List Action) acc, minLoop f l acc = none → l = [] ∧ acc = none := by
  intro l
  induction l with
  | nil => intro acc h; exact ⟨rfl, h⟩
  | cons a rest ih =>
    intro acc h
    rw [minLoop, forceI_eq] at h
    split at h
    · exact absurd (ih _ h).2 (by simp)
    · split at h <;> exact absurd (ih _ h).2 (by simp)

theorem maxLoop_mem {f : Action → Int} :
    ∀ (l : List Action) acc v a, maxLoop f l acc = some (v, a) →
      a ∈ l ∨ acc = some (v, a) := by
  intro l
  induction l with
  | nil => intro acc v a h; exact Or.inr h
  | cons x rest ih =>
    intro acc v a h
    rw [maxLoop, forceI_eq] at h
    split at h
    · rcases ih _ _ _ h with hmem | heq
      · exact Or.inl (by simp [hmem])
      · simp only [Option.some.injEq, Prod.mk.injEq] at heq
        rcases heq with ⟨-, rfl⟩
        exact Or.inl (List.mem_cons_self _ _)
    · split at h
      · rcases ih _ _ _ h with hmem | heq
        · exact Or.inl (by simp [hmem])
        · simp only [Option.some.injEq, Prod.mk.injEq] at heq
          rcases heq with ⟨-, rfl⟩
          exact Or.inl (List.mem_cons_self _ _)
      · rcases ih _ _ _ h with hmem | heq
        · exact Or.inl (by simp [hmem])
        · exact Or.inr heq

theorem minLoop_mem {f : Action → Int} :
    ∀ (l : List Action) acc v a, minLoop f l acc = some (v, a) →
      a ∈ l ∨ acc = some (v, a) := by
  intro l
  induction l with
  | nil => intro acc v a h; exact Or.inr h
  | cons x rest ih =>
    intro acc v a h
    rw [minLoop, forceI_eq] at h
    split at h
    · rcases ih _ _ _ h with hmem | heq
      · exact Or.inl (by simp [hmem])
      · simp only [Option.some.injEq, Prod.mk.injEq] at heq
        rcases heq with ⟨-, rfl⟩
        exact Or.inl (List.mem_cons_self _ _)
    · split at h
      · rcases ih _ _ _ h with hmem | heq
        · exact Or.inl (by simp [hmem])
        · simp only [Option.some.injEq, Prod.mk.injEq] at heq
          rcases heq with ⟨-, rfl⟩
          exact Or.inl (List.mem_cons_self _ _)
      · rcases ih _ _ _ h with hmem | heq
        · exact Or.inl (by simp [hmem])
        · exact Or.inr heq

end TTT

namespace TTT

open Player

theorem maxVal_succ (fuel : Nat) (b : Board) :
    maxVal (fuel + 1) b =
      if terminal b then (utility b, none)
      else
        match maxLoop (fun a => (minVal fuel (place b a)).1) (actions b) none with
        | some (v, ba) => (v, some ba)
        | none => (0, none) := rfl

theorem minVal_succ (fuel : Nat) (b : Board) :
    minVal (fuel + 1) b =
      if terminal b then (utility b, none)
      else
        match minLoop (fun a => (maxVal fuel (place b a)).1) (actions b) none with
        | some (v, ba) => (v, some ba)
        | none => (0, none) := rfl

theorem maxVal_zero (b : Board) : maxVal 0 b = (utility b, none) := rfl

theorem minVal_zero (b : Board) : minVal 0 b = (utility b, none) := rfl

theorem actions_ne_nil_of_not_terminal {b : Board} (hb : terminal b = false) :
    actions b ≠ [] := by
  intro h0
  rw [terminal] at hb
  simp [h0] at hb

/-- C2: on every non-terminal board, `minimax` returns `some` action drawn
from `actions(board)` — never `None`, never an occupied or out-of-range
coordinate. -/
theorem minimax_in_actions (b : Board) (hb : terminal b = false) :
    ∃ a, minimax b = some a ∧ a ∈ actions b := by
  have hne := actions_ne_nil_of_not_terminal hb
  have h9 : (9 : Nat) = 8 + 1 := rfl
  by_cases hp : player b = X
  · rcases hm : maxLoop (fun a => (minVal 8 (place b a)).1) (actions b) none with _ | ⟨v, ba⟩
    · exact absurd (maxLoop_eq_none _ _ hm).1 hne
    · refine ⟨ba, ?_, ?_⟩
      · rw [minimax, hb]
        simp only [Bool.false_eq_true, if_false, hp, if_pos]
        rw [h9, maxVal_succ, hb]
        simp only [Bool.false_eq_true, if_false, hm]
      · rcases maxLoop_mem _ _ _ _ hm with h | h
        · exact h
        · simp at h
  · rcases hm : minLoop (fun a => (maxVal 8 (place b a)).1) (actions b) none with _ | ⟨v, ba⟩
    · exact absurd (minLoop_eq_none _ _ hm).1 hne
    · refine ⟨ba, ?_, ?_⟩
      · rw [minimax, hb]
        simp only [Bool.false_eq_true, if_false, hp, if_neg]
        rw [h9, minVal_succ, hb]
        simp only [Bool.false_eq_true, if_false, hm]
      · rcases minLoop_mem _ _ _ _ hm with h | h
        · exact h
        · simp at h

theorem minimax_in_actions_witness :
    ∃ a, minimax (emptyBoard.setCell 0 0 (some X)) = some a ∧
      a ∈ actions (emptyBoard.setCell 0 0 (some X)) :=
  minimax_in_actions (emptyBoard.setCell 0 0 (some X)) (by decide)

end TTT

namespace TTT

open Player

theorem eCount_place {b : Board} {a : Action} (ha : a ∈ actions b) :
    (actions (place b a)).length + 1 = (actions b).length := by
  obtain ⟨i, j⟩ := a
  rw [mem_actions] at ha
  obtain ⟨hi, hj, hcell⟩ := ha
  rw [length_actions_eq, length_actions_eq]
  interval_cases i <;> interval_cases j <;>
    (simp only [Board.cell] at hcell
     simp [cellsOf, place, Board.setCell, List.countP_cons, hcell, cellEmpty]
     try omega)

theorem terminal_of_actions_nil {b : Board} (h : (actions b).length = 0) :
    terminal b = true := by
  simp [terminal, h]

theorem maxVal_terminal {b : Board} (ht : terminal b = true) :
    ∀ f, maxVal f b = (utility b, none)
  | 0 => rfl
  | f + 1 => by simp [maxVal_succ, ht]

theorem minVal_terminal {b : Board} (ht : terminal b = true) :
    ∀ f, minVal f b = (utility b, none)
  | 0 => rfl
  | f + 1 => by simp [minVal_succ, ht]

theorem actions_le_nine (b : Board) : (actions b).length ≤ 9 := by
  have h : (actions b).length ≤ allCoords.length := List.length_filter_le _ _
  simpa [allCoords] using h

theorem val_fuel_irrel :
    ∀ (n : Nat) (b : Board) (f g : Nat), (actions b).length = n → n ≤ f → n ≤ g →
      maxVal f b = maxVal g b ∧ minVal f b = minVal g b := by
  intro n
  induction n using Nat.strong_induction_on with
  | _ n ih =>
    intro b f g hn hf hg
    rcases n with _ | m
    · have ht := terminal_of_actions_nil hn
      rw [maxVal_terminal ht f, maxVal_terminal ht g, minVal_terminal ht f,
          minVal_terminal ht g]
      exact ⟨rfl, rfl⟩
    · rcases f with _ | f'
      · omega
      rcases g with _ | g'
      · omega
      by_cases ht : terminal b = true
      · rw [maxVal_terminal ht, maxVal_terminal ht, minVal_terminal ht, minVal_terminal ht]
        exact ⟨rfl, rfl⟩
      · have hchild : ∀ a ∈ actions b,
            maxVal f' (place b a) = maxVal g' (place b a) ∧
            minVal f' (place b a) = minVal g' (place b a) := by
          intro a ha
          have hlen : (actions (place b a)).length = m := by
            have := eCount_place ha
            omega
          exact ih m (by omega) (place b a) f' g' hlen (by omega) (by omega)
        constructor
        · rw [maxVal_succ, maxVal_succ,
              maxLoop_congr (actions b)
                (fun a ha => congrArg Prod.fst ((hchild a ha).2)) none]
        · rw [minVal_succ, minVal_succ,
              minLoop_congr (actions b)
                (fun a ha => congrArg Prod.fst ((hchild a ha).1)) none]

/-- C9: the search is total.  Each application of an enumerated action
strictly decreases the number of empty cells, and once the recursion depth
budget covers that number the results of `max_value`/`min_value` no longer
depend on it, so the recursion always bottoms out at terminal boards. -/
theorem search_total :
    (∀ (b : Board) (a : Action), a ∈ actions b →
        (actions (place b a)).length < (actions b).length) ∧
    (∀ (b : Board) (f : Nat), (actions b).length ≤ f →
        maxVal f b = maxVal 9 b ∧ minVal f b = minVal 9 b) := by
  constructor
  · intro b a ha
    have := eCount_place ha
    omega
  · intro b f hf
    exact val_fuel_irrel (actions b).length b f 9 rfl hf (actions_le_nine b)

theorem search_total_witness :
    (actions (place emptyBoard (0, 0))).length < (actions emptyBoard).length ∧
    maxVal 12 emptyBoard = maxVal 9 emptyBoard :=
  ⟨search_total.1 emptyBoard (0, 0) (by decide),
   (search_total.2 emptyBoard 12 (by decide)).1⟩

end TTT

namespace TTT

open Player

/-! ### Claim C3: value and first-wins tie-break of the selection loops.
`listMax`/`listMin` are spec-side definitions ("the maximum over all
actions"), to be compared with what the loops compute. -/

/-- Spec-side: maximum of `f` over a list of actions. -/
def listMax (f : Action → Int) : List Action → Int
  | [] => 0
  | a :: rest => rest.foldl (fun m x => max m (f x)) (f a)

/-- Spec-side: minimum of `f` over a list of actions. -/
def listMin (f : Action → Int) : List Action → Int
  | [] => 0
  | a :: rest => rest.foldl (fun m x => min m (f x)) (f a)

theorem maxLoop_cons_none (f : Action → Int) (a : Action) (rest : List Action) :
    maxLoop f (a :: rest) none = maxLoop f rest (some (f a, a)) := by
  rw [maxLoop, forceI_eq]

theorem minLoop_cons_none (f : Action → Int) (a : Action) (rest : List Action) :
    minLoop f (a :: rest) none = minLoop f rest (some (f a, a)) := by
  rw [minLoop, forceI_eq]

theorem maxLoop_cons_some (f : Action → Int) (a : Action) (rest : List Action)
    (v₀ : Int) (a₀ : Action) :
    maxLoop f (a :: rest) (some (v₀, a₀)) =
      maxLoop f rest (if f a > v₀ then some (f a, a) else some (v₀, a₀)) := by
  rw [maxLoop, forceI_eq]

theorem minLoop_cons_some (f : Action → Int) (a : Action) (rest : List Action)
    (v₀ : Int) (a₀ : Action) :
    minLoop f (a :: rest) (some (v₀, a₀)) =
      minLoop f rest (if f a < v₀ then some (f a, a) else some (v₀, a₀)) := by
  rw [minLoop, forceI_eq]

theorem foldl_max_all_le {f : Action → Int} :
    ∀ (l : List Action) (v : Int), (∀ x ∈ l, f x ≤ v) →
      l.foldl (fun m x => max m (f x)) v = v := by
  intro l
  induction l with
  | nil => intro v _; rfl
  | cons a rest ih =>
    intro v h
    rw [List.foldl_cons, max_eq_left (h a (by simp))]
    exact ih v (fun x hx => h x (by simp [hx]))

theorem foldl_min_all_ge {f : Action → Int} :
    ∀ (l : List Action) (v : Int), (∀ x ∈ l, v ≤ f x) →
      l.foldl (fun m x => min m (f x)) v = v := by
  intro l
  induction l with
  | nil => intro v _; rfl
  | cons a rest ih =>
    intro v h
    rw [List.foldl_cons, min_eq_left (h a (by simp))]
    exact ih v (fun x hx => h x (by simp [hx]))

theorem maxLoop_some_value {f : Action → Int} :
    ∀ (l : List Action) (v₀ : Int) (a₀ : Action),
      ∃ A, maxLoop f l (some (v₀, a₀)) =
        some (l.foldl (fun m x => max m (f x)) v₀, A) := by
  intro l
  induction l with
  | nil => intro v₀ a₀; exact ⟨a₀, rfl⟩
  | cons a rest ih =>
    intro v₀ a₀
    rw [maxLoop_cons_some, List.foldl_cons]
    by_cases h : f a > v₀
    · rw [if_pos h, max_eq_right (le_of_lt h)]
      exact ih (f a) a
    · rw [if_neg h, max_eq_left (le_of_not_lt h)]
      exact ih v₀ a₀

theorem minLoop_some_value {f : Action → Int} :
    ∀ (l : List Action) (v₀ : Int) (a₀ : Action),
      ∃ A, minLoop f l (some (v₀, a₀)) =
        some (l.foldl (fun m x => min m (f x)) v₀, A) := by
  intro l
  induction l with
  | nil => intro v₀ a₀; exact ⟨a₀, rfl⟩
  | cons a rest ih =>
    intro v₀ a₀
    rw [minLoop_cons_some, List.foldl_cons]
    by_cases h : f a < v₀
    · rw [if_pos h, min_eq_right (le_of_lt h)]
      exact ih (f a) a
    · rw [if_neg h, min_eq_left (le_of_not_lt h)]
      exact ih v₀ a₀

theorem maxLoop_argmax {f : Action → Int} :
    ∀ (l : List Action) (v₀ : Int) (a₀ : Action) (V : Int) (A : Action),
      maxLoop f l (some (v₀, a₀)) = some (V, A) →
      ((∀ x ∈ l, f x ≤ v₀) ∧ V = v₀ ∧ A = a₀) ∨
      ((∃ x ∈ l, v₀ < f x) ∧ v₀ < V ∧
        l.find? (fun x => f x == V) = some A) := by
  intro l
  induction l with
  | nil =>
    intro v₀ a₀ V A h
    simp only [maxLoop, Option.some.injEq, Prod.mk.injEq] at h
    exact Or.inl ⟨by simp, h.1.symm, h.2.symm⟩
  | cons a rest ih =>
    intro v₀ a₀ V A h
    rw [maxLoop_cons_some] at h
    by_cases hc : f a > v₀
    · rw [if_pos hc] at h
      rcases ih _ _ _ _ h with ⟨hall, hV, hA⟩ | ⟨hex, hlt, hfind⟩
      · refine Or.inr ⟨⟨a, by simp, hc⟩, by omega, ?_⟩
        rw [List.find?_cons_of_pos _ (by simp [hV])]
        rw [hA]
      · obtain ⟨x, hx, hvx⟩ := hex
        refine Or.inr ⟨⟨x, by simp [hx], by omega⟩, by omega, ?_⟩
        rw [List.find?_cons_of_neg _ (by simp; omega)]
        exact hfind
    · rw [if_neg hc] at h
      rcases ih _ _ _ _ h with ⟨hall, hV, hA⟩ | ⟨hex, hlt, hfind⟩
      · refine Or.inl ⟨?_, hV, hA⟩
        intro x hx
        rcases List.mem_cons.mp hx with rfl | hx'
        · exact le_of_not_lt hc
        · exact hall x hx'
      · obtain ⟨x, hx, hvx⟩ := hex
        refine Or.inr ⟨⟨x, by simp [hx], hvx⟩, hlt, ?_⟩
        rw [List.find?_cons_of_neg _ (by simp; omega)]
        exact hfind

theorem minLoop_argmin {f : Action → Int} :
    ∀ (l : List Action) (v₀ : Int) (a₀ : Action) (V : Int) (A : Action),
      minLoop f l (some (v₀, a₀)) = some (V, A) →
      ((∀ x ∈ l, v₀ ≤ f x) ∧ V = v₀ ∧ A = a₀) ∨
      ((∃ x ∈ l, f x < v₀) ∧ V < v₀ ∧
        l.find? (fun x => f x == V) = some A) := by
  intro l
  induction l with
  | nil =>
    intro v₀ a₀ V A h
    simp only [minLoop, Option.some.injEq, Prod.mk.injEq] at h
    exact Or.inl ⟨by simp, h.1.symm, h.2.symm⟩
  | cons a rest ih =>
    intro v₀ a₀ V A h
    rw [minLoop_cons_some] at h
    by_cases hc : f a < v₀
    · rw [if_pos hc] at h
      rcases ih _ _ _ _ h with ⟨hall, hV, hA⟩ | ⟨hex, hlt, hfind⟩
      · refine Or.inr ⟨⟨a, by simp, hc⟩, by omega, ?_⟩
        rw [List.find?_cons_of_pos _ (by simp [hV])]
        rw [hA]
      · obtain ⟨x, hx, hvx⟩ := hex
        refine Or.inr ⟨⟨x, by simp [hx], by omega⟩, by omega, ?_⟩
        rw [List.find?_cons_of_neg _ (by simp; omega)]
        exact hfind
    · rw [if_neg hc] at h
      rcases ih _ _ _ _ h with ⟨hall, hV, hA⟩ | ⟨hex, hlt, hfind⟩
      · refine Or.inl ⟨?_, hV, hA⟩
        intro x hx
        rcases List.mem_cons.mp hx with rfl | hx'
        · exact le_of_not_lt hc
        · exact hall x hx'
      · obtain ⟨x, hx, hvx⟩ := hex
        refine Or.inr ⟨⟨x, by simp [hx], hvx⟩, hlt, ?_⟩
        rw [List.find?_cons_of_neg _ (by simp; omega)]
        exact hfind

end TTT

namespace TTT

open Player

/-- The value a child board contributes to `max_value`'s loop:
`min_value(result(board, action))[0]` at the inner recursion depth. -/
def childMinVal (fuel : Nat) (b : Board) (a : Action) : Int :=
  (minVal fuel (place b a)).1

/-- The value a child board contributes to `min_value`'s loop. -/
def childMaxVal (fuel : Nat) (b : Board) (a : Action) : Int :=
  (maxVal fuel (place b a)).1

/-- C3: for a non-terminal board, `max_value` returns the maximum over all
actions of the `min_value` of the resulting board, paired with the FIRST
action (in the enumeration order of `actions`) whose value attains that
maximum; `min_value` is symmetric with the minimum and strict `<`.  Later
equal-valued actions never replace the first one. -/
theorem value_and_first_tiebreak (fuel : Nat) (b : Board) (hb : terminal b = false) :
    (∃ A, maxVal (fuel + 1) b =
        (listMax (childMinVal fuel b) (actions b), some A) ∧
      (actions b).find? (fun x =>
        childMinVal fuel b x == listMax (childMinVal fuel b) (actions b)) = some A) ∧
    (∃ A, minVal (fuel + 1) b =
        (listMin (childMaxVal fuel b) (actions b), some A) ∧
      (actions b).find? (fun x =>
        childMaxVal fuel b x == listMin (childMaxVal fuel b) (actions b)) = some A) := by
  have hne := actions_ne_nil_of_not_terminal hb
  constructor
  · rcases hl : actions b with _ | ⟨a, rest⟩
    · exact absurd hl hne
    obtain ⟨A, hA⟩ := maxLoop_some_value (f := childMinVal fuel b) rest (childMinVal fuel b a) a
    have hval : maxVal (fuel + 1) b =
        (rest.foldl (fun m x => max m (childMinVal fuel b x)) (childMinVal fuel b a), some A) := by
      rw [maxVal_succ, hb]
      simp only [Bool.false_eq_true, if_false]
      rw [maxLoop_congr (F := fun x => (minVal fuel (place b x)).1)
            (G := childMinVal fuel b) (actions b) (fun x _ => rfl) none,
          hl, maxLoop_cons_none, hA]
    refine ⟨A, ?_, ?_⟩
    · rw [hval]
      rfl
    · simp only [listMax]
      rcases maxLoop_argmax rest (childMinVal fuel b a) a _ A hA with
        ⟨hall, hV, hA0⟩ | ⟨hex, hlt, hfind⟩
      · rw [List.find?_cons_of_pos _ (by simp [hV]), hA0]
      · rw [List.find?_cons_of_neg _ (by simp; omega)]
        exact hfind
  · rcases hl : actions b with _ | ⟨a, rest⟩
    · exact absurd hl hne
    obtain ⟨A, hA⟩ := minLoop_some_value (f := childMaxVal fuel b) rest (childMaxVal fuel b a) a
    have hval : minVal (fuel + 1) b =
        (rest.foldl (fun m x => min m (childMaxVal fuel b x)) (childMaxVal fuel b a), some A) := by
      rw [minVal_succ, hb]
      simp only [Bool.false_eq_true, if_false]
      rw [minLoop_congr (F := fun x => (maxVal fuel (place b x)).1)
            (G := childMaxVal fuel b) (actions b) (fun x _ => rfl) none,
          hl, minLoop_cons_none, hA]
    refine ⟨A, ?_, ?_⟩
    · rw [hval]
      rfl
    · simp only [listMin]
      rcases minLoop_argmin rest (childMaxVal fuel b a) a _ A hA with
        ⟨hall, hV, hA0⟩ | ⟨hex, hlt, hfind⟩
      · rw [List.find?_cons_of_pos _ (by simp [hV]), hA0]
      · rw [List.find?_cons_of_neg _ (by simp; omega)]
        exact hfind

/-- A non-terminal position with one empty cell, used to instantiate C3. -/
def tieBoard : Board :=
  ⟨some X, some X, some O, some O, some O, some X, some X, some O, none⟩

theorem value_and_first_tiebreak_witness :
    (∃ A, maxVal (0 + 1) tieBoard =
        (listMax (childMinVal 0 tieBoard) (actions tieBoard), some A) ∧
      (actions tieBoard).find? (fun x =>
        childMinVal 0 tieBoard x ==
          listMax (childMinVal 0 tieBoard) (actions tieBoard)) = some A) ∧
    (∃ A, minVal (0 + 1) tieBoard =
        (listMin (childMaxVal 0 tieBoard) (actions tieBoard), some A) ∧
      (actions tieBoard).find? (fun x =>
        childMaxVal 0 tieBoard x ==
          listMin (childMaxVal 0 tieBoard) (actions tieBoard)) = some A) :=
  value_and_first_tiebreak 0 tieBoard (by decide)

end TTT

namespace TTT

open Player

/-- The board of claim C4: `X` at (0,0) and (0,1), `O` at (1,0); `O` to move. -/
def blockBoard : Board :=
  ⟨some X, some X, none, some O, none, none, none, none, none⟩

/-- C4: on `blockBoard` the computer (`O`, the minimizing side) chooses
exactly (0,2), the move that blocks `X`'s top row. -/
theorem minimax_blocks : minimax blockBoard = some (0, 2) := by decide!

end TTT
